import Mathlib

/-!
Verification development for the hit-aggregation engine of
`src/src/daemon/p7_hitlist.h` (HMMER daemon hitlist).

The repository ships only the header: struct layouts and function
declarations with doc comments.  The function bodies (`p7_hitlist.c`) are
absent, so every operation below is modelled from the specification's
description of its behaviour; each such definition carries a
`Modelled from the spec:` doc comment naming what is missing.

Representation choices:
* object IDs (`uint64_t`) are modelled as `Nat` — all operations on IDs are
  comparisons, so no overflow arithmetic arises;
* the doubly-linked entry lists (`prev`/`next` pointers) are modelled as
  Lean `List`s in `next` order; the `start`/`end` pointer pair of a chunk
  (resp. `hit_list_start`/`hit_list_end` of a hitlist) is modelled by
  `List.head?` / `List.getLast?` of the corresponding list;
* the `pthread_mutex_t` lock serialises `p7_hitlist_add_Chunk`; under the
  lock the merge is sequential, so the model is the sequential function.
-/

namespace HmmerHitlist

/-- Structurally recursive decidability for `List.Chain`, so that `decide`
can evaluate chain conditions on concrete lists through the kernel. -/
instance decChainKernel {α : Type} {R : α → α → Prop} [dR : DecidableRel R] :
    ∀ (a : α) (l : List α), Decidable (List.Chain R a l)
  | _, [] => isTrue List.Chain.nil
  | a, b :: l =>
      match dR a b, decChainKernel b l with
      | isTrue h1, isTrue h2 => isTrue (List.Chain.cons h1 h2)
      | isFalse h1, _ => isFalse (fun h => h1 (List.chain_cons.mp h).1)
      | _, isFalse h2 => isFalse (fun h => h2 (List.chain_cons.mp h).2)

/-- Structurally recursive decidability for `List.Chain'`. -/
instance decChainKernel' {α : Type} {R : α → α → Prop} [DecidableRel R] :
    ∀ (l : List α), Decidable (List.Chain' R l)
  | [] => isTrue List.chain'_nil
  | a :: l => decChainKernel a l

/-- The hit payload (`P7_HIT`).  The core stores and compares only a numeric
object ID and passes the rest of the payload through untouched, so the model
keeps just the ID. -/
structure P7_HIT where
  id : Nat
deriving DecidableEq, Repr

/-- `P7_HITLIST_ENTRY`: a node wrapping one hit.  The `prev`/`next` links are
represented by the position of the entry inside the enclosing `List`. -/
structure P7_HITLIST_ENTRY where
  hit : P7_HIT
deriving DecidableEq, Repr

/-- The object ID of the hit wrapped by an entry. -/
def P7_HITLIST_ENTRY.id (e : P7_HITLIST_ENTRY) : Nat := e.hit.id

/-- `P7_HIT_CHUNK`: a run of entries sorted ascending by object ID, with
cached `start_id`/`end_id`.  The `start`/`end` entry pointers are the head
and last element of `entries`; the `prev`/`next` chunk links are represented
by the position of the chunk inside the hitlist's chunk list. -/
structure P7_HIT_CHUNK where
  entries : List P7_HITLIST_ENTRY
  start_id : Nat
  end_id : Nat
deriving DecidableEq, Repr

/-- `P7_HITLIST`: the global entry list (`hit_list_start` … `hit_list_end`,
modelled as the list `hit_list`), its cached bounding IDs, and the global
chunk list. -/
structure P7_HITLIST where
  hit_list : List P7_HITLIST_ENTRY
  hit_list_start_id : Nat
  hit_list_end_id : Nat
  chunk_list : List P7_HIT_CHUNK
deriving DecidableEq, Repr

/-- Modelled from the spec: `p7_hit_chunk_Create` (body absent from src)
returns an empty chunk, `start`/`end` none, cached IDs undefined until the
first append (represented by 0). -/
def p7_hit_chunk_Create : P7_HIT_CHUNK :=
  { entries := [], start_id := 0, end_id := 0 }

/-- Modelled from the spec: `p7_add_entry_to_chunk` (body absent from src)
appends the entry at the tail of the chunk's entry list; on first append it
sets both `start` and `end` to the entry and both cached IDs to the entry's
ID, otherwise it updates `end`/`end_id` only.  Allocation failure (the only
failure path) is outside the model, so the function totally returns the
updated chunk. -/
def p7_add_entry_to_chunk (e : P7_HITLIST_ENTRY) (c : P7_HIT_CHUNK) :
    P7_HIT_CHUNK :=
  match c.entries with
  | [] => { entries := [e], start_id := e.id, end_id := e.id }
  | _ :: _ => { c with entries := c.entries ++ [e], end_id := e.id }

/-- Modelled from the spec: `p7_hitlist_Create` (body absent from src)
returns an empty hitlist: empty entry list, empty chunk list, lock
initialised unlocked (the lock is not part of the sequential model). -/
def p7_hitlist_Create : P7_HITLIST :=
  { hit_list := [], hit_list_start_id := 0, hit_list_end_id := 0,
    chunk_list := [] }

/-- Modelled from the spec: the chunk-list half of the splice performed by
`p7_hitlist_add_Chunk` — scan the chunk list from the front and link the
incoming chunk in at the unique position where its interval fits
(`end_id` below the next chunk's `start_id`). -/
def insertChunk (c : P7_HIT_CHUNK) : List P7_HIT_CHUNK → List P7_HIT_CHUNK
  | [] => [c]
  | a :: rest =>
      if c.end_id < a.start_id then c :: a :: rest
      else a :: insertChunk c rest

/-- Modelled from the spec: the entry-list half of the splice performed by
`p7_hitlist_add_Chunk` — walk the chunk list and the entry list in lockstep
(each chunk's `end` pointer delimits its run of `entries.length` nodes) and
relink the incoming chunk's run into the entry list at the same boundary
where the chunk itself is linked into the chunk list. -/
def spliceRun (c : P7_HIT_CHUNK) :
    List P7_HIT_CHUNK → List P7_HITLIST_ENTRY → List P7_HITLIST_ENTRY
  | [], es => es ++ c.entries
  | a :: rest, es =>
      if c.end_id < a.start_id then c.entries ++ es
      else es.take a.entries.length ++
        spliceRun c rest (es.drop a.entries.length)

/-- Modelled from the spec: `p7_hitlist_add_Chunk` (body absent from src) —
the synchronized merge.  Under the lock: if the chunk list is empty the
chunk becomes the sole element of both lists and both global bounds come
from the chunk; otherwise the chunk and its entry run are spliced at the
position found by the linear scan, and the global start (resp. end) bound
is updated exactly when the chunk lands before the first (resp. after the
last) existing chunk. -/
def p7_hitlist_add_Chunk (c : P7_HIT_CHUNK) (hl : P7_HITLIST) : P7_HITLIST :=
  match hl.chunk_list with
  | [] =>
      { hit_list := c.entries, hit_list_start_id := c.start_id,
        hit_list_end_id := c.end_id, chunk_list := [c] }
  | a :: rest =>
      { hit_list := spliceRun c (a :: rest) hl.hit_list
        hit_list_start_id :=
          if c.end_id < a.start_id then c.start_id else hl.hit_list_start_id
        hit_list_end_id :=
          if (rest.getLastD a).end_id < c.start_id then c.end_id
          else hl.hit_list_end_id
        chunk_list := insertChunk c (a :: rest) }

/-- Merging a whole sequence of chunks, in arrival order, into a fresh
hitlist. -/
def mergeAll (cs : List P7_HIT_CHUNK) : P7_HITLIST :=
  cs.foldl (fun hl c => p7_hitlist_add_Chunk c hl) p7_hitlist_Create

/-- Concatenation of the entry runs of a list of chunks, in chunk-list
order. -/
def runConcat : List P7_HIT_CHUNK → List P7_HITLIST_ENTRY
  | [] => []
  | c :: rest => c.entries ++ runConcat rest

/-- Well-formed chunk: nonempty, internally strictly ascending by object
ID, and the cached IDs agree with the first and last entry. -/
def WFChunk (c : P7_HIT_CHUNK) : Prop :=
  c.entries ≠ [] ∧
  List.Chain' (fun a b => a.id < b.id) c.entries ∧
  c.entries.head?.map P7_HITLIST_ENTRY.id = some c.start_id ∧
  c.entries.getLast?.map P7_HITLIST_ENTRY.id = some c.end_id

instance (c : P7_HIT_CHUNK) : Decidable (WFChunk c) :=
  inferInstanceAs (Decidable (c.entries ≠ [] ∧
    List.Chain' (fun a b : P7_HITLIST_ENTRY => a.id < b.id) c.entries ∧
    c.entries.head?.map P7_HITLIST_ENTRY.id = some c.start_id ∧
    c.entries.getLast?.map P7_HITLIST_ENTRY.id = some c.end_id))

/-- Two chunks' `[start_id, end_id]` ranges do not overlap. -/
def ChunkDisj (c d : P7_HIT_CHUNK) : Prop :=
  c.end_id < d.start_id ∨ d.end_id < c.start_id

instance (c d : P7_HIT_CHUNK) : Decidable (ChunkDisj c d) :=
  inferInstanceAs
    (Decidable (c.end_id < d.start_id ∨ d.end_id < c.start_id))

/-- Adjacent-chunk ordering used by the global chunk list. -/
def chunkLt (c d : P7_HIT_CHUNK) : Prop := c.end_id < d.start_id

instance (c d : P7_HIT_CHUNK) : Decidable (chunkLt c d) :=
  inferInstanceAs (Decidable (c.end_id < d.start_id))

/-- The hitlist invariant: every merged chunk is well formed, the chunk
list is ordered with pairwise non-overlapping ranges, the global entry list
is the concatenation of the chunks' runs, and the cached global bounds come
from the first and last chunk. -/
def HLInv (hl : P7_HITLIST) : Prop :=
  (∀ c ∈ hl.chunk_list, WFChunk c) ∧
  List.Chain' chunkLt hl.chunk_list ∧
  hl.hit_list = runConcat hl.chunk_list ∧
  (∀ a ∈ hl.chunk_list.head?, hl.hit_list_start_id = a.start_id) ∧
  (∀ z ∈ hl.chunk_list.getLast?, hl.hit_list_end_id = z.end_id)

/-- Strict ascending order on entries, by object ID. -/
def entLt (a b : P7_HITLIST_ENTRY) : Prop := a.id < b.id

instance (a b : P7_HITLIST_ENTRY) : Decidable (entLt a b) :=
  inferInstanceAs (Decidable (a.id < b.id))

/-! ### Concrete scenario material (spec §8) -/

/-- An entry wrapping a hit with the given object ID. -/
def mkEntry (n : Nat) : P7_HITLIST_ENTRY := ⟨⟨n⟩⟩

/-- A chunk built the way a worker builds one: starting from
`p7_hit_chunk_Create` and appending entries with the given IDs in order via
`p7_add_entry_to_chunk`. -/
def mkChunk (ids : List Nat) : P7_HIT_CHUNK :=
  ids.foldl (fun c n => p7_add_entry_to_chunk (mkEntry n) c)
    p7_hit_chunk_Create

/-- Chunk A of the spec's concrete scenario: entries with IDs 2, 4. -/
def chunkA : P7_HIT_CHUNK := mkChunk [2, 4]

/-- Chunk B of the spec's concrete scenario: entries with IDs 6, 8. -/
def chunkB : P7_HIT_CHUNK := mkChunk [6, 8]

/-- Chunk C of the spec's concrete scenario: one entry with ID 1. -/
def chunkC : P7_HIT_CHUNK := mkChunk [1]

/-! ### Memory model for the destructors (claim C8)

The destructors' bodies are absent from src; only the header's doc comments
describe them ("do not call the base p7_hit_Destroy … these are pointers
into the daemon's data shard").  They are modelled at the level of a flat
address space so that the frame property — shard memory untouched — is
expressible. -/

/-- A flat memory: address to stored word; `none` means freed. -/
def Mem : Type := Nat → Option Nat

/-- Free a single address. -/
def freeAddr (m : Mem) (a : Nat) : Mem :=
  fun x => if x = a then none else m x

/-- What the destructors see of one `P7_HITLIST_ENTRY`: the address of the
entry node itself (scaffolding owned by the hitlist) and the addresses
inside the daemon's data shard that the node's `P7_HIT` payload's internal
fields alias. -/
structure EntryNode where
  node_addr : Nat
  payload_fields : List Nat
deriving DecidableEq, Repr

/-- Modelled from the spec: `p7_hitlist_entry_Destroy` (body absent from
src) frees the entry node only; it must not call `p7_hit_Destroy`, which
would free the payload's internal fields — pointers into the daemon's data
shard. -/
def p7_hitlist_entry_Destroy (e : EntryNode) (m : Mem) : Mem :=
  freeAddr m e.node_addr

/-- Modelled from the spec: `p7_hitlist_Destroy` (body absent from src)
frees all entry and chunk scaffolding reachable from the list — each entry
node via `p7_hitlist_entry_Destroy`, then the chunk shells — and never the
borrowed payloads. -/
def p7_hitlist_Destroy (nodes : List EntryNode) (chunk_addrs : List Nat)
    (m : Mem) : Mem :=
  chunk_addrs.foldl freeAddr
    (nodes.foldl (fun mm e => p7_hitlist_entry_Destroy e mm) m)

/-! ### Stream model for the reporting adapter (claim C9) -/

/-- One line of tabular output.  The spec fixes only the adapter's
contract, not the formatting, so a line is abstracted to its kind: the
optional header, or the line for the hit with a given object ID. -/
inductive OutLine where
  | header : OutLine
  | hitline (id : Nat) : OutLine
deriving DecidableEq, Repr

/-- A writable text sink with the lines accepted so far and the number of
further writes the device can accept before it fails (e.g. the disk
filling up). -/
structure OutStream where
  written : List OutLine
  capacity : Nat
deriving DecidableEq, Repr

/-- One write to the stream: fails (returns `none`) exactly when the
device's capacity is exhausted. -/
def writeLine (st : OutStream) (ln : OutLine) : Option OutStream :=
  match st.capacity with
  | 0 => none
  | n + 1 => some { written := st.written ++ [ln], capacity := n }

/-- Write a sequence of lines, stopping at the first failure. -/
def writeAll (st : OutStream) : List OutLine → Option OutStream
  | [] => some st
  | l :: ls =>
      match writeLine st l with
      | none => none
      | some st2 => writeAll st2 ls

/-- Easel status code: success. -/
def eslOK : Int := 0

/-- Easel status code: write failure (value immaterial to the claims;
what matters is that it is distinct from `eslOK`). -/
def eslEWRITE : Int := 27

/-- Modelled from the spec: `p7_hitlist_TabularTargets` (body absent from
src) traverses the finished global entry list once, writing an optional
header line then one line per hit; returns `eslOK` on success and throws
`eslEWRITE` if a write to the stream fails.  The query-name, accession and
`Z` arguments only affect line contents, which the line abstraction elides.
The hitlist is threaded through unchanged to express that the adapter
never mutates it. -/
def p7_hitlist_TabularTargets (ofp : OutStream) (th : P7_HITLIST)
    (show_header : Bool) : Int × OutStream × P7_HITLIST :=
  let lines := (if show_header then [OutLine.header] else []) ++
    th.hit_list.map (fun e => OutLine.hitline e.id)
  match writeAll ofp lines with
  | some st => (eslOK, st, th)
  | none => (eslEWRITE, ofp, th)

/-- The number of lines `p7_hitlist_TabularTargets` attempts to write. -/
def tabularLineCount (th : P7_HITLIST) (show_header : Bool) : Nat :=
  (if show_header then 1 else 0) + th.hit_list.length

/-! ### Basic facts about the building blocks -/

theorem runConcat_nil : runConcat [] = [] := rfl

theorem runConcat_cons (c : P7_HIT_CHUNK) (l : List P7_HIT_CHUNK) :
    runConcat (c :: l) = c.entries ++ runConcat l := rfl

theorem runConcat_length (l : List P7_HIT_CHUNK) :
    (runConcat l).length = (l.map (fun c => c.entries.length)).sum := by
  induction l with
  | nil => rfl
  | cons a t ih => simp [runConcat_cons, ih]

theorem chain_head_le_last (l : List P7_HITLIST_ENTRY)
    (h : List.Chain' entLt l) :
    ∀ x ∈ l.head?, ∀ y ∈ l.getLast?, x.id ≤ y.id := by
  induction l with
  | nil => simp
  | cons a t ih =>
    cases t with
    | nil => simp
    | cons b t2 =>
      intro x hx y hy
      simp only [List.head?_cons, Option.mem_def, Option.some.injEq] at hx
      subst hx
      rw [List.getLast?_cons_cons] at hy
      rcases List.chain'_cons.mp h with ⟨hab, ht⟩
      have hb := ih ht b (by simp) y hy
      exact le_trans (le_of_lt hab) hb

theorem wf_start_le_end {c : P7_HIT_CHUNK} (h : WFChunk c) :
    c.start_id ≤ c.end_id := by
  rcases h with ⟨hne, hs, hhd, hlst⟩
  cases hc : c.entries with
  | nil => exact absurd hc hne
  | cons e t =>
    rw [hc] at hhd hlst hs
    have h1 := chain_head_le_last (e :: t) hs
    simp only [List.head?_cons, Option.map_some'] at hhd
    cases hl : (e :: t).getLast? with
    | none => simp [hl] at hlst
    | some y =>
      rw [hl] at hlst
      simp only [Option.map_some', Option.some.injEq] at hhd hlst
      have := h1 e (by simp) y (by simp [hl])
      omega

/-! ### `insertChunk` -/

theorem insertChunk_nil (c : P7_HIT_CHUNK) : insertChunk c [] = [c] := rfl

theorem insertChunk_cons (c a : P7_HIT_CHUNK) (rest : List P7_HIT_CHUNK) :
    insertChunk c (a :: rest) =
      if c.end_id < a.start_id then c :: a :: rest
      else a :: insertChunk c rest := rfl

theorem insertChunk_perm (c : P7_HIT_CHUNK) (l : List P7_HIT_CHUNK) :
    (insertChunk c l).Perm (c :: l) := by
  induction l with
  | nil => simp [insertChunk_nil]
  | cons a t ih =>
    rw [insertChunk_cons]
    split
    · exact List.Perm.refl _
    · exact (List.Perm.cons a ih).trans (List.Perm.swap c a t)

theorem insertChunk_ne_nil (c : P7_HIT_CHUNK) (l : List P7_HIT_CHUNK) :
    insertChunk c l ≠ [] := by
  cases l with
  | nil => simp [insertChunk_nil]
  | cons a t =>
    rw [insertChunk_cons]
    split <;> simp

theorem insertChunk_head (c a : P7_HIT_CHUNK) (rest : List P7_HIT_CHUNK) :
    (insertChunk c (a :: rest)).head? =
      if c.end_id < a.start_id then some c else some a := by
  rw [insertChunk_cons]
  split <;> simp

theorem insertChunk_head_or (c : P7_HIT_CHUNK) (l : List P7_HIT_CHUNK) :
    (insertChunk c l).head? = some c ∨ (insertChunk c l).head? = l.head? := by
  cases l with
  | nil => left; rfl
  | cons a t =>
    rw [insertChunk_head]
    split
    · left; rfl
    · right; simp

theorem insertChunk_append_of_none (c : P7_HIT_CHUNK) (l : List P7_HIT_CHUNK)
    (h : ∀ a ∈ l, ¬ c.end_id < a.start_id) : insertChunk c l = l ++ [c] := by
  induction l with
  | nil => rfl
  | cons a t ih =>
    rw [insertChunk_cons, if_neg (h a (by simp))]
    rw [ih (fun b hb => h b (List.mem_cons_of_mem a hb))]
    simp

theorem insertChunk_getLast_of_mem (c : P7_HIT_CHUNK)
    (l : List P7_HIT_CHUNK) (h : ∃ a ∈ l, c.end_id < a.start_id) :
    (insertChunk c l).getLast? = l.getLast? := by
  induction l with
  | nil => simp at h
  | cons a t ih =>
    rw [insertChunk_cons]
    by_cases hca : c.end_id < a.start_id
    · rw [if_pos hca]
      rw [List.getLast?_cons_cons]
    · rw [if_neg hca]
      have ht : ∃ b ∈ t, c.end_id < b.start_id := by
        rcases h with ⟨b, hb, hcb⟩
        rcases List.mem_cons.mp hb with rfl | hb2
        · exact absurd hcb hca
        · exact ⟨b, hb2, hcb⟩
      cases t with
      | nil => simp at ht
      | cons b t2 =>
        cases hil : insertChunk c (b :: t2) with
        | nil => exact absurd hil (insertChunk_ne_nil c (b :: t2))
        | cons x xs =>
          rw [List.getLast?_cons_cons, List.getLast?_cons_cons,
            ← hil, ih ht]

theorem getLast_some_mem {α : Type} {l : List α} {z : α}
    (h : l.getLast? = some z) : z ∈ l := by
  rcases List.mem_getLast?_eq_getLast (Option.mem_def.mpr h) with ⟨hne, hz⟩
  rw [hz]
  exact List.getLast_mem hne

theorem mem_start_le_last_end :
    ∀ (l : List P7_HIT_CHUNK), List.Chain' chunkLt l →
    (∀ d ∈ l, d.start_id ≤ d.end_id) →
    ∀ a ∈ l, ∀ z ∈ l.getLast?, a.start_id ≤ z.end_id := by
  intro l
  induction l with
  | nil => simp
  | cons a t ih =>
    intro hch hwf b hb z hz
    cases t with
    | nil =>
      rw [List.getLast?_singleton] at hz
      simp only [Option.mem_def, Option.some.injEq] at hz
      subst hz
      rcases List.mem_singleton.mp hb with rfl
      exact hwf b (by simp)
    | cons b0 t2 =>
      rw [List.getLast?_cons_cons] at hz
      have hab0 : chunkLt a b0 := (List.chain'_cons.mp hch).1
      have ht := (List.chain'_cons.mp hch).2
      have hwt : ∀ d ∈ b0 :: t2, d.start_id ≤ d.end_id :=
        fun d hd => hwf d (List.mem_cons_of_mem a hd)
      rcases List.mem_cons.mp hb with rfl | hb2
      · have h1 := ih ht hwt b0 (by simp) z hz
        have h2 := hwf b (by simp)
        unfold chunkLt at hab0
        omega
      · exact ih ht hwt b hb2 z hz

theorem insertChunk_sorted {c : P7_HIT_CHUNK} :
    ∀ (l : List P7_HIT_CHUNK), List.Chain' chunkLt l →
    (∀ d ∈ l, ChunkDisj c d) → (∀ d ∈ l, d.start_id ≤ d.end_id) →
    List.Chain' chunkLt (insertChunk c l) := by
  intro l
  induction l with
  | nil => intro _ _ _; simp [insertChunk_nil]
  | cons a t ih =>
    intro hch hd hwf
    rw [insertChunk_cons]
    by_cases hca : c.end_id < a.start_id
    · rw [if_pos hca]
      exact List.chain'_cons.mpr ⟨hca, hch⟩
    · rw [if_neg hca]
      have hac : chunkLt a c := by
        rcases hd a (by simp) with h | h
        · exact absurd h hca
        · exact h
      apply List.chain'_cons'.mpr
      refine ⟨?_, ih hch.tail
        (fun d hd2 => hd d (List.mem_cons_of_mem a hd2))
        (fun d hd2 => hwf d (List.mem_cons_of_mem a hd2))⟩
      intro y hy
      rcases insertChunk_head_or c t with h1 | h1
      · rw [h1] at hy
        simp only [Option.mem_def, Option.some.injEq] at hy
        subst hy
        exact hac
      · rw [h1] at hy
        exact (List.chain'_cons'.mp hch).1 y hy

theorem chain_imp_pairwise :
    ∀ (l : List P7_HIT_CHUNK), (∀ d ∈ l, d.start_id ≤ d.end_id) →
    List.Chain' chunkLt l → List.Pairwise chunkLt l := by
  intro l
  induction l with
  | nil => intro _ _; simp
  | cons a t ih =>
    intro hwf hch
    have hpt := ih (fun d hd => hwf d (List.mem_cons_of_mem a hd)) hch.tail
    refine List.Pairwise.cons ?_ hpt
    intro b hb
    cases t with
    | nil => simp at hb
    | cons b0 t2 =>
      have hab0 : chunkLt a b0 := (List.chain'_cons.mp hch).1
      rcases List.mem_cons.mp hb with rfl | hb2
      · exact hab0
      · have h2 : chunkLt b0 b := (List.pairwise_cons.mp hpt).1 b hb2
        have hw : b0.start_id ≤ b0.end_id := hwf b0 (by simp)
        unfold chunkLt at hab0 h2 ⊢
        omega

theorem sorted_perm_eq :
    ∀ (l₁ l₂ : List P7_HIT_CHUNK), l₁.Perm l₂ →
    (∀ d ∈ l₁, d.start_id ≤ d.end_id) →
    List.Chain' chunkLt l₁ → List.Chain' chunkLt l₂ → l₁ = l₂ := by
  intro l₁
  induction l₁ with
  | nil =>
    intro l₂ hp _ _ _
    exact hp.nil_eq
  | cons a t ih =>
    intro l₂ hp hwf hch₁ hch₂
    cases l₂ with
    | nil =>
      have := hp.length_eq
      simp at this
    | cons b t₂ =>
      by_cases hab : a = b
      · subst hab
        have ht := hp.cons_inv
        have := ih t₂ ht (fun d hd => hwf d (List.mem_cons_of_mem a hd))
          hch₁.tail hch₂.tail
        rw [this]
      · exfalso
        have hwf₂ : ∀ d ∈ b :: t₂, d.start_id ≤ d.end_id :=
          fun d hd => hwf d (hp.mem_iff.mpr hd)
        have hpw₁ := chain_imp_pairwise _ hwf hch₁
        have hpw₂ := chain_imp_pairwise _ hwf₂ hch₂
        have hain : a ∈ b :: t₂ := hp.mem_iff.mp (by simp)
        have hbin : b ∈ a :: t := hp.mem_iff.mpr (by simp)
        have ha2 : a ∈ t₂ := by
          rcases List.mem_cons.mp hain with h | h
          · exact absurd h hab
          · exact h
        have hb1 : b ∈ t := by
          rcases List.mem_cons.mp hbin with h | h
          · exact absurd h.symm hab
          · exact h
        have h1 : chunkLt a b := (List.pairwise_cons.mp hpw₁).1 b hb1
        have h2 : chunkLt b a := (List.pairwise_cons.mp hpw₂).1 a ha2
        have w1 := hwf a (by simp)
        have w2 := hwf b hbin
        unfold chunkLt at h1 h2
        omega

/-! ### `spliceRun` against the run-concatenation representation -/

theorem spliceRun_runConcat (c : P7_HIT_CHUNK) :
    ∀ (l : List P7_HIT_CHUNK),
    spliceRun c l (runConcat l) = runConcat (insertChunk c l) := by
  intro l
  induction l with
  | nil => simp [spliceRun, runConcat_nil, insertChunk_nil, runConcat_cons]
  | cons a t ih =>
    rw [insertChunk_cons, runConcat_cons]
    by_cases hca : c.end_id < a.start_id
    · rw [if_pos hca]
      simp only [spliceRun, if_pos hca]
      rw [runConcat_cons, runConcat_cons]
    · rw [if_neg hca]
      simp only [spliceRun, if_neg hca]
      rw [List.take_left, List.drop_left, ih, runConcat_cons]

theorem runConcat_sorted :
    ∀ (l : List P7_HIT_CHUNK), (∀ d ∈ l, WFChunk d) →
    List.Chain' chunkLt l → List.Chain' entLt (runConcat l) := by
  intro l
  induction l with
  | nil => intro _ _; simp [runConcat_nil]
  | cons a t ih =>
    intro hwf hch
    rw [runConcat_cons]
    apply List.chain'_append.mpr
    refine ⟨(hwf a (by simp)).2.1,
      ih (fun d hd => hwf d (List.mem_cons_of_mem a hd)) hch.tail, ?_⟩
    intro x hx y hy
    cases t with
    | nil => simp [runConcat_nil] at hy
    | cons b t2 =>
      rcases hwf b (by simp) with ⟨hbne, _, hbhd, _⟩
      rw [runConcat_cons] at hy
      cases hbe : b.entries with
      | nil => exact absurd hbe hbne
      | cons e0 es =>
        rw [hbe] at hy
        simp only [List.cons_append, List.head?_cons, Option.mem_def,
          Option.some.injEq] at hy
        subst hy
        rcases hwf a (by simp) with ⟨_, _, _, halst⟩
        have hxid : x.id = a.end_id := by
          rw [Option.mem_def] at hx
          rw [hx] at halst
          simpa using halst
        have hyid : e0.id = b.start_id := by
          rw [hbe] at hbhd
          simpa using hbhd
        have hab : chunkLt a b := (List.chain'_cons.mp hch).1
        unfold chunkLt at hab
        unfold entLt
        omega

theorem runConcat_head (b : P7_HIT_CHUNK) (rest : List P7_HIT_CHUNK)
    (h : b.entries ≠ []) : (runConcat (b :: rest)).head? = b.entries.head? := by
  rw [runConcat_cons]
  cases hb : b.entries with
  | nil => exact absurd hb h
  | cons e es => simp

theorem runConcat_getLast :
    ∀ (l : List P7_HIT_CHUNK) (z : P7_HIT_CHUNK), l.getLast? = some z →
    (∀ d ∈ l, d.entries ≠ []) →
    (runConcat l).getLast? = z.entries.getLast? := by
  intro l
  induction l with
  | nil => intro z h; simp at h
  | cons a t ih =>
    intro z hz hne
    cases t with
    | nil =>
      rw [List.getLast?_singleton] at hz
      rcases Option.some.injEq _ _ ▸ hz with rfl
      rw [runConcat_cons, runConcat_nil, List.append_nil]
    | cons b t2 =>
      rw [List.getLast?_cons_cons] at hz
      rw [runConcat_cons, List.getLast?_append,
        ih z hz (fun d hd => hne d (List.mem_cons_of_mem a hd))]
      have hzm : z ∈ b :: t2 := getLast_some_mem hz
      have hzne : z.entries ≠ [] := hne z (List.mem_cons_of_mem a hzm)
      cases hzl : z.entries.getLast? with
      | none => exact absurd (List.getLast?_eq_none_iff.mp hzl) hzne
      | some w => simp

/-! ### `p7_hitlist_add_Chunk`: field equations and invariant preservation -/

theorem chunkDisj_symm {c d : P7_HIT_CHUNK} (h : ChunkDisj c d) :
    ChunkDisj d c := Or.symm h

theorem addChunk_chunk_list (c : P7_HIT_CHUNK) (hl : P7_HITLIST) :
    (p7_hitlist_add_Chunk c hl).chunk_list = insertChunk c hl.chunk_list := by
  cases h : hl.chunk_list with
  | nil => simp [p7_hitlist_add_Chunk, h, insertChunk_nil]
  | cons a rest => simp [p7_hitlist_add_Chunk, h, insertChunk_cons]

theorem addChunk_hit_list (c : P7_HIT_CHUNK) (hl : P7_HITLIST)
    (h : hl.hit_list = runConcat hl.chunk_list) :
    (p7_hitlist_add_Chunk c hl).hit_list =
      runConcat (insertChunk c hl.chunk_list) := by
  cases h2 : hl.chunk_list with
  | nil =>
    simp [p7_hitlist_add_Chunk, h2, insertChunk_nil, runConcat_cons,
      runConcat_nil]
  | cons a rest =>
    have : hl.hit_list = runConcat (a :: rest) := by rw [h, h2]
    simp only [p7_hitlist_add_Chunk, h2, this]
    exact spliceRun_runConcat c (a :: rest)

theorem hlinv_create : HLInv p7_hitlist_Create := by
  unfold HLInv p7_hitlist_Create
  simp [runConcat_nil]

theorem addChunk_inv {c : P7_HIT_CHUNK} {hl : P7_HITLIST}
    (hinv : HLInv hl) (hwf : WFChunk c)
    (hd : ∀ d ∈ hl.chunk_list, ChunkDisj c d) :
    HLInv (p7_hitlist_add_Chunk c hl) := by
  rcases hinv with ⟨hall, hch, hrep, hstart, hend⟩
  have hwfle : ∀ d ∈ hl.chunk_list, d.start_id ≤ d.end_id :=
    fun d hd2 => wf_start_le_end (hall d hd2)
  refine ⟨?_, ?_, ?_, ?_, ?_⟩
  · -- every chunk in the new chunk list is well formed
    intro d hd2
    rw [addChunk_chunk_list] at hd2
    rcases List.mem_cons.mp
        ((insertChunk_perm c hl.chunk_list).mem_iff.mp hd2) with h | h
    · exact h ▸ hwf
    · exact hall d h
  · rw [addChunk_chunk_list]
    exact insertChunk_sorted hl.chunk_list hch hd hwfle
  · rw [addChunk_hit_list c hl hrep, addChunk_chunk_list]
  · -- cached global start bound comes from the first chunk
    intro a' ha'
    rw [addChunk_chunk_list] at ha'
    cases h2 : hl.chunk_list with
    | nil =>
      rw [h2, insertChunk_nil] at ha'
      simp only [List.head?_cons, Option.mem_def, Option.some.injEq] at ha'
      subst ha'
      simp [p7_hitlist_add_Chunk, h2]
    | cons a rest =>
      rw [h2, insertChunk_head] at ha'
      by_cases hca : c.end_id < a.start_id
      · rw [if_pos hca] at ha'
        simp only [Option.mem_def, Option.some.injEq] at ha'
        subst ha'
        simp [p7_hitlist_add_Chunk, h2, if_pos hca]
      · rw [if_neg hca] at ha'
        simp only [Option.mem_def, Option.some.injEq] at ha'
        subst ha'
        have hsa := hstart a (by rw [h2]; simp)
        simp only [p7_hitlist_add_Chunk, h2]
        rw [if_neg hca, hsa]
  · -- cached global end bound comes from the last chunk
    intro z' hz'
    rw [addChunk_chunk_list] at hz'
    cases h2 : hl.chunk_list with
    | nil =>
      rw [h2, insertChunk_nil, List.getLast?_singleton] at hz'
      simp only [Option.mem_def, Option.some.injEq] at hz'
      subst hz'
      simp [p7_hitlist_add_Chunk, h2]
    | cons a rest =>
      have hzlast : hl.chunk_list.getLast? = some (rest.getLastD a) := by
        rw [h2, List.getLast?_cons, List.getLastD_eq_getLast?]
      have hzend := hend (rest.getLastD a) (Option.mem_def.mpr hzlast)
      have hzmem : rest.getLastD a ∈ hl.chunk_list := getLast_some_mem hzlast
      by_cases hlt : (rest.getLastD a).end_id < c.start_id
      · -- the chunk lands after the last existing chunk
        have hnone : ∀ d ∈ a :: rest, ¬ c.end_id < d.start_id := by
          intro d hd2
          have h1 : d.start_id ≤ (rest.getLastD a).end_id :=
            mem_start_le_last_end (a :: rest) (h2 ▸ hch) (h2 ▸ hwfle) d hd2
              (rest.getLastD a) (Option.mem_def.mpr (h2 ▸ hzlast))
          have h2c : c.start_id ≤ c.end_id := wf_start_le_end hwf
          omega
        rw [h2, insertChunk_append_of_none c (a :: rest) hnone,
          List.getLast?_append, List.getLast?_singleton] at hz'
        obtain rfl : c = z' := by simpa using hz'
        simp only [p7_hitlist_add_Chunk, h2]
        rw [if_pos hlt]
      · -- the chunk lands strictly before the last existing chunk
        have hex : ∃ d ∈ a :: rest, c.end_id < d.start_id := by
          rcases hd (rest.getLastD a) hzmem with h | h
          · exact ⟨rest.getLastD a, h2 ▸ hzmem, h⟩
          · exact absurd h hlt
        rw [h2, insertChunk_getLast_of_mem c (a :: rest) hex,
          (show (a :: rest).getLast? = some (rest.getLastD a) from
            h2 ▸ hzlast)] at hz'
        simp only [Option.mem_def, Option.some.injEq] at hz'
        subst hz'
        simp only [p7_hitlist_add_Chunk, h2]
        rw [if_neg hlt, hzend]

/-! ### Merging a whole family of chunks -/

theorem mergeAll_loop :
    ∀ (cs : List P7_HIT_CHUNK) (hl : P7_HITLIST), HLInv hl →
    (∀ c ∈ cs, WFChunk c) → List.Pairwise ChunkDisj cs →
    (∀ c ∈ cs, ∀ d ∈ hl.chunk_list, ChunkDisj c d) →
    HLInv (List.foldl (fun h c => p7_hitlist_add_Chunk c h) hl cs) ∧
    (List.foldl (fun h c => p7_hitlist_add_Chunk c h) hl cs).chunk_list.Perm
      (cs ++ hl.chunk_list) := by
  intro cs
  induction cs with
  | nil =>
    intro hl hinv _ _ _
    exact ⟨hinv, by simp⟩
  | cons c cs2 ih =>
    intro hl hinv hwf hpw hcross
    have hwfc : WFChunk c := hwf c (by simp)
    have hdc : ∀ d ∈ hl.chunk_list, ChunkDisj c d := hcross c (by simp)
    have hinv2 := addChunk_inv hinv hwfc hdc
    have hperm1 : (p7_hitlist_add_Chunk c hl).chunk_list.Perm
        (c :: hl.chunk_list) := by
      rw [addChunk_chunk_list]
      exact insertChunk_perm c hl.chunk_list
    have hcross2 : ∀ c2 ∈ cs2, ∀ d ∈ (p7_hitlist_add_Chunk c hl).chunk_list,
        ChunkDisj c2 d := by
      intro c2 hc2 d hd2
      rcases List.mem_cons.mp (hperm1.mem_iff.mp hd2) with rfl | hdl
      · exact chunkDisj_symm ((List.pairwise_cons.mp hpw).1 c2 hc2)
      · exact hcross c2 (List.mem_cons_of_mem c hc2) d hdl
    have hmain := ih (p7_hitlist_add_Chunk c hl) hinv2
      (fun c2 h => hwf c2 (List.mem_cons_of_mem c h))
      (List.pairwise_cons.mp hpw).2 hcross2
    refine ⟨hmain.1, ?_⟩
    have p2 := hmain.2.trans ((List.Perm.refl cs2).append hperm1)
    exact p2.trans List.perm_middle

theorem mergeAll_hlinv {cs : List P7_HIT_CHUNK}
    (hwf : ∀ c ∈ cs, WFChunk c) (hpw : List.Pairwise ChunkDisj cs) :
    HLInv (mergeAll cs) ∧ (mergeAll cs).chunk_list.Perm cs := by
  have h := mergeAll_loop cs p7_hitlist_Create hlinv_create hwf hpw
    (by simp [p7_hitlist_Create])
  refine ⟨h.1, ?_⟩
  simpa [p7_hitlist_Create] using h.2

/-! ### The claims -/

/-- C1: for every sequence of chunks with pairwise non-overlapping
`[start_id, end_id]` ranges, each internally sorted in ascending ID order,
merging them into a HitList via `p7_hitlist_add_Chunk` in any arrival
order yields a global entry list that is strictly ascending by object
ID. -/
theorem claim_C1_sortedness (cs : List P7_HIT_CHUNK)
    (hwf : ∀ c ∈ cs, WFChunk c) (hpw : List.Pairwise ChunkDisj cs) :
    List.Chain' entLt (mergeAll cs).hit_list := by
  obtain ⟨⟨hall, hch, hrep, _, _⟩, _⟩ := mergeAll_hlinv hwf hpw
  rw [hrep]
  exact runConcat_sorted _ hall hch

/-- Witness for C1 at the spec's concrete chunks. -/
theorem claim_C1_witness :
    List.Chain' entLt (mergeAll [chunkA, chunkB, chunkC]).hit_list :=
  claim_C1_sortedness [chunkA, chunkB, chunkC] (by decide) (by decide)

/-- C2: after merging pairwise non-overlapping chunks into an initially
empty HitList, the total number of entries in the global entry list equals
the sum of the chunks' entry counts — nothing dropped, nothing
duplicated. -/
theorem claim_C2_completeness (cs : List P7_HIT_CHUNK)
    (hwf : ∀ c ∈ cs, WFChunk c) (hpw : List.Pairwise ChunkDisj cs) :
    (mergeAll cs).hit_list.length =
      (cs.map (fun c => c.entries.length)).sum := by
  obtain ⟨⟨_, _, hrep, _, _⟩, hperm⟩ := mergeAll_hlinv hwf hpw
  rw [hrep, runConcat_length]
  exact (hperm.map (fun c => c.entries.length)).sum_eq

/-- Witness for C2 at the spec's concrete chunks. -/
theorem claim_C2_witness :
    (mergeAll [chunkA, chunkB, chunkC]).hit_list.length =
      ([chunkA, chunkB, chunkC].map (fun c => c.entries.length)).sum :=
  claim_C2_completeness [chunkA, chunkB, chunkC] (by decide) (by decide)

/-- C3: after every successful `p7_hitlist_add_Chunk` whose incoming chunk
is disjoint from all ranges already present, the global chunk list is
ordered so that each chunk's `end_id` is strictly below its successor's
`start_id`; in particular no two chunks' ranges overlap. -/
theorem claim_C3_nonoverlap (hl : P7_HITLIST) (c : P7_HIT_CHUNK)
    (hinv : HLInv hl) (hwf : WFChunk c)
    (hd : ∀ d ∈ hl.chunk_list, ChunkDisj c d) :
    List.Chain' chunkLt (p7_hitlist_add_Chunk c hl).chunk_list ∧
    List.Pairwise ChunkDisj (p7_hitlist_add_Chunk c hl).chunk_list := by
  obtain ⟨hall2, hch2, _, _, _⟩ := addChunk_inv hinv hwf hd
  refine ⟨hch2, ?_⟩
  have hle : ∀ d ∈ (p7_hitlist_add_Chunk c hl).chunk_list,
      d.start_id ≤ d.end_id := fun d hd2 => wf_start_le_end (hall2 d hd2)
  exact (chain_imp_pairwise _ hle hch2).imp (fun h => Or.inl h)

/-- Witness for C3: adding chunk C to the hitlist already holding chunks
A and B. -/
theorem claim_C3_witness :
    List.Chain' chunkLt
      (p7_hitlist_add_Chunk chunkC (mergeAll [chunkA, chunkB])).chunk_list ∧
    List.Pairwise ChunkDisj
      (p7_hitlist_add_Chunk chunkC (mergeAll [chunkA, chunkB])).chunk_list :=
  claim_C3_nonoverlap (mergeAll [chunkA, chunkB]) chunkC
    ((mergeAll_hlinv (by decide) (by decide)).1) (by decide) (by decide)

/-- C4: `p7_hitlist_add_Chunk` is order-independent — merging the same set
of pairwise non-overlapping chunks in two arrival orders yields the same
final global entry sequence. -/
theorem claim_C4_order_independence (cs cs2 : List P7_HIT_CHUNK)
    (hperm : cs.Perm cs2)
    (hwf : ∀ c ∈ cs, WFChunk c) (hpw : List.Pairwise ChunkDisj cs) :
    (mergeAll cs).hit_list = (mergeAll cs2).hit_list := by
  have hwf2 : ∀ c ∈ cs2, WFChunk c := fun c h => hwf c (hperm.mem_iff.mpr h)
  have hpw2 : List.Pairwise ChunkDisj cs2 :=
    (List.Perm.pairwise_iff (fun h => chunkDisj_symm h) hperm).mp hpw
  obtain ⟨⟨hall1, hch1, hrep1, _, _⟩, hp1⟩ := mergeAll_hlinv hwf hpw
  obtain ⟨⟨_, hch2, hrep2, _, _⟩, hp2⟩ := mergeAll_hlinv hwf2 hpw2
  have heq : (mergeAll cs).chunk_list = (mergeAll cs2).chunk_list :=
    sorted_perm_eq _ _ (hp1.trans (hperm.trans hp2.symm))
      (fun d hd => wf_start_le_end (hall1 d hd)) hch1 hch2
  rw [hrep1, hrep2, heq]

/-- Witness for C4 at the spec's example orders: ranges `[1,5]`, `[10,15]`,
`[6,9]` versus `[1,5]`, `[6,9]`, `[10,15]`. -/
theorem claim_C4_witness :
    (mergeAll [mkChunk [1, 5], mkChunk [10, 15], mkChunk [6, 9]]).hit_list =
      (mergeAll [mkChunk [1, 5], mkChunk [6, 9],
        mkChunk [10, 15]]).hit_list :=
  claim_C4_order_independence
    [mkChunk [1, 5], mkChunk [10, 15], mkChunk [6, 9]]
    [mkChunk [1, 5], mkChunk [6, 9], mkChunk [10, 15]]
    (by decide) (by decide) (by decide)

/-- C5: the spec's concrete scenario — merging chunk A (IDs 2, 4), then
chunk B (IDs 6, 8), then chunk C (ID 1) into an empty HitList yields the
global entry order 1, 2, 4, 6, 8 and the global chunk list C, A, B with
ranges [1,1], [2,4], [6,8]. -/
theorem claim_C5_concrete_scenario :
    (mergeAll [chunkA, chunkB, chunkC]).hit_list.map P7_HITLIST_ENTRY.id =
      [1, 2, 4, 6, 8] ∧
    (mergeAll [chunkA, chunkB, chunkC]).chunk_list =
      [chunkC, chunkA, chunkB] ∧
    (mergeAll [chunkA, chunkB, chunkC]).chunk_list.map
      (fun c => (c.start_id, c.end_id)) = [(1, 1), (2, 4), (6, 8)] := by
  decide

/-- C6: for every chunk and entry with `entry.id ≥ chunk.end_id`,
`p7_add_entry_to_chunk` appends the entry at the tail of the chunk's entry
list; if the chunk was empty it sets both `start` and `end` to the entry
and both cached IDs to the entry's ID, otherwise it updates `end` and
`end_id` to the new entry and leaves `start` and `start_id` unchanged. -/
theorem claim_C6_add_entry (e : P7_HITLIST_ENTRY) (c : P7_HIT_CHUNK)
    (_h : c.end_id ≤ e.id) :
    (p7_add_entry_to_chunk e c).entries = c.entries ++ [e] ∧
    (c.entries = [] →
      (p7_add_entry_to_chunk e c).entries.head? = some e ∧
      (p7_add_entry_to_chunk e c).entries.getLast? = some e ∧
      (p7_add_entry_to_chunk e c).start_id = e.id ∧
      (p7_add_entry_to_chunk e c).end_id = e.id) ∧
    (c.entries ≠ [] →
      (p7_add_entry_to_chunk e c).entries.getLast? = some e ∧
      (p7_add_entry_to_chunk e c).entries.head? = c.entries.head? ∧
      (p7_add_entry_to_chunk e c).start_id = c.start_id ∧
      (p7_add_entry_to_chunk e c).end_id = e.id) := by
  cases hc : c.entries with
  | nil => simp [p7_add_entry_to_chunk, hc]
  | cons x xs =>
    have hg : (x :: (xs ++ [e])).getLast? = some e := by
      rw [← List.cons_append]
      exact List.getLast?_concat _
    simp [p7_add_entry_to_chunk, hc, hg]

/-- Witness for C6: appending the entry with ID 9 to chunk A (range
[2,4]). -/
theorem claim_C6_witness :
    (p7_add_entry_to_chunk (mkEntry 9) chunkA).entries =
      chunkA.entries ++ [mkEntry 9] ∧
    (chunkA.entries = [] →
      (p7_add_entry_to_chunk (mkEntry 9) chunkA).entries.head? =
        some (mkEntry 9) ∧
      (p7_add_entry_to_chunk (mkEntry 9) chunkA).entries.getLast? =
        some (mkEntry 9) ∧
      (p7_add_entry_to_chunk (mkEntry 9) chunkA).start_id = (mkEntry 9).id ∧
      (p7_add_entry_to_chunk (mkEntry 9) chunkA).end_id = (mkEntry 9).id) ∧
    (chunkA.entries ≠ [] →
      (p7_add_entry_to_chunk (mkEntry 9) chunkA).entries.getLast? =
        some (mkEntry 9) ∧
      (p7_add_entry_to_chunk (mkEntry 9) chunkA).entries.head? =
        chunkA.entries.head? ∧
      (p7_add_entry_to_chunk (mkEntry 9) chunkA).start_id =
        chunkA.start_id ∧
      (p7_add_entry_to_chunk (mkEntry 9) chunkA).end_id = (mkEntry 9).id) :=
  claim_C6_add_entry (mkEntry 9) chunkA (by decide)

/-- C7: merging into an empty HitList sets both global bounds from the
chunk's bounds; for a non-empty HitList, merging a chunk whose `end_id` is
strictly below the current `hit_list_start_id` updates `hit_list_start_id`
to the chunk's `start_id`, and symmetrically a chunk whose `start_id` is
strictly above the current `hit_list_end_id` updates `hit_list_end_id` to
the chunk's `end_id`. -/
theorem claim_C7_boundary (hl : P7_HITLIST) (c : P7_HIT_CHUNK)
    (hinv : HLInv hl) :
    (hl.chunk_list = [] →
      (p7_hitlist_add_Chunk c hl).hit_list_start_id = c.start_id ∧
      (p7_hitlist_add_Chunk c hl).hit_list_end_id = c.end_id) ∧
    (hl.chunk_list ≠ [] → c.end_id < hl.hit_list_start_id →
      (p7_hitlist_add_Chunk c hl).hit_list_start_id = c.start_id) ∧
    (hl.chunk_list ≠ [] → hl.hit_list_end_id < c.start_id →
      (p7_hitlist_add_Chunk c hl).hit_list_end_id = c.end_id) := by
  obtain ⟨_, _, _, hstart, hend⟩ := hinv
  refine ⟨?_, ?_, ?_⟩
  · intro h0
    simp [p7_hitlist_add_Chunk, h0]
  · intro hne hlt
    cases h2 : hl.chunk_list with
    | nil => exact absurd h2 hne
    | cons a rest =>
      have hsa := hstart a (by rw [h2]; simp)
      rw [hsa] at hlt
      simp only [p7_hitlist_add_Chunk, h2]
      rw [if_pos hlt]
  · intro hne hlt
    cases h2 : hl.chunk_list with
    | nil => exact absurd h2 hne
    | cons a rest =>
      have hza : hl.chunk_list.getLast? = some (rest.getLastD a) := by
        rw [h2, List.getLast?_cons, List.getLastD_eq_getLast?]
      have hze := hend (rest.getLastD a) (Option.mem_def.mpr hza)
      rw [hze] at hlt
      simp only [p7_hitlist_add_Chunk, h2]
      rw [if_pos hlt]

/-- Witness for C7: merging chunk C into the hitlist holding chunks A
and B. -/
theorem claim_C7_witness :
    ((mergeAll [chunkA, chunkB]).chunk_list = [] →
      (p7_hitlist_add_Chunk chunkC
        (mergeAll [chunkA, chunkB])).hit_list_start_id = chunkC.start_id ∧
      (p7_hitlist_add_Chunk chunkC
        (mergeAll [chunkA, chunkB])).hit_list_end_id = chunkC.end_id) ∧
    ((mergeAll [chunkA, chunkB]).chunk_list ≠ [] →
      chunkC.end_id < (mergeAll [chunkA, chunkB]).hit_list_start_id →
      (p7_hitlist_add_Chunk chunkC
        (mergeAll [chunkA, chunkB])).hit_list_start_id = chunkC.start_id) ∧
    ((mergeAll [chunkA, chunkB]).chunk_list ≠ [] →
      (mergeAll [chunkA, chunkB]).hit_list_end_id < chunkC.start_id →
      (p7_hitlist_add_Chunk chunkC
        (mergeAll [chunkA, chunkB])).hit_list_end_id = chunkC.end_id) :=
  claim_C7_boundary (mergeAll [chunkA, chunkB]) chunkC
    ((mergeAll_hlinv (by decide) (by decide)).1)

/-- C10: after every successful `p7_hitlist_add_Chunk`, the global entry
list is exactly the concatenation of the merged chunks' entry runs in
chunk-list order; in particular `hit_list_start` (the head of the entry
list) is the first entry of the first chunk's run, `hit_list_end` (the
last element) is the last entry of the last chunk's run, and the cached
global bounds equal the first chunk's `start_id` and the last chunk's
`end_id`. -/
theorem claim_C10_representation (hl : P7_HITLIST) (c : P7_HIT_CHUNK)
    (hinv : HLInv hl) (hwf : WFChunk c)
    (hd : ∀ d ∈ hl.chunk_list, ChunkDisj c d) :
    (p7_hitlist_add_Chunk c hl).hit_list =
      runConcat (p7_hitlist_add_Chunk c hl).chunk_list ∧
    (∀ a ∈ (p7_hitlist_add_Chunk c hl).chunk_list.head?,
      (p7_hitlist_add_Chunk c hl).hit_list_start_id = a.start_id ∧
      (p7_hitlist_add_Chunk c hl).hit_list.head? = a.entries.head?) ∧
    (∀ z ∈ (p7_hitlist_add_Chunk c hl).chunk_list.getLast?,
      (p7_hitlist_add_Chunk c hl).hit_list_end_id = z.end_id ∧
      (p7_hitlist_add_Chunk c hl).hit_list.getLast? =
        z.entries.getLast?) := by
  obtain ⟨hall2, hch2, hrep2, hstart2, hend2⟩ := addChunk_inv hinv hwf hd
  refine ⟨hrep2, ?_, ?_⟩
  · intro a ha
    refine ⟨hstart2 a ha, ?_⟩
    cases h2 : (p7_hitlist_add_Chunk c hl).chunk_list with
    | nil => rw [h2] at ha; simp at ha
    | cons a0 t =>
      rw [h2] at ha
      simp only [List.head?_cons, Option.mem_def, Option.some.injEq] at ha
      subst ha
      rw [hrep2, h2]
      exact runConcat_head a0 t (hall2 a0 (by rw [h2]; simp)).1
  · intro z hz
    refine ⟨hend2 z hz, ?_⟩
    rw [hrep2]
    exact runConcat_getLast _ z (Option.mem_def.mp hz)
      (fun d hd2 => (hall2 d hd2).1)

/-- Witness for C10: merging chunk C into the hitlist holding chunks A
and B. -/
theorem claim_C10_witness :
    (p7_hitlist_add_Chunk chunkC (mergeAll [chunkA, chunkB])).hit_list =
      runConcat (p7_hitlist_add_Chunk chunkC
        (mergeAll [chunkA, chunkB])).chunk_list ∧
    (∀ a ∈ (p7_hitlist_add_Chunk chunkC
        (mergeAll [chunkA, chunkB])).chunk_list.head?,
      (p7_hitlist_add_Chunk chunkC
        (mergeAll [chunkA, chunkB])).hit_list_start_id = a.start_id ∧
      (p7_hitlist_add_Chunk chunkC
        (mergeAll [chunkA, chunkB])).hit_list.head? = a.entries.head?) ∧
    (∀ z ∈ (p7_hitlist_add_Chunk chunkC
        (mergeAll [chunkA, chunkB])).chunk_list.getLast?,
      (p7_hitlist_add_Chunk chunkC
        (mergeAll [chunkA, chunkB])).hit_list_end_id = z.end_id ∧
      (p7_hitlist_add_Chunk chunkC
        (mergeAll [chunkA, chunkB])).hit_list.getLast? =
        z.entries.getLast?) :=
  claim_C10_representation (mergeAll [chunkA, chunkB]) chunkC
    ((mergeAll_hlinv (by decide) (by decide)).1) (by decide) (by decide)

/-! ### Destructor frame property -/

theorem foldl_freeAddr_of_not_mem (addrs : List Nat) :
    ∀ (m : Mem) (a : Nat), a ∉ addrs → addrs.foldl freeAddr m a = m a := by
  induction addrs with
  | nil => intro m a _; rfl
  | cons x xs ih =>
    intro m a ha
    have hax : a ≠ x := fun h => ha (h ▸ List.mem_cons_self x xs)
    have haxs : a ∉ xs := fun h => ha (List.mem_cons_of_mem x h)
    rw [List.foldl_cons, ih (freeAddr m x) a haxs]
    simp [freeAddr, hax]

theorem foldl_entry_destroy_of_ne (nodes : List EntryNode) :
    ∀ (m : Mem) (a : Nat), (∀ e ∈ nodes, a ≠ e.node_addr) →
    (nodes.foldl (fun mm e => p7_hitlist_entry_Destroy e mm) m) a = m a := by
  induction nodes with
  | nil => intro m a _; rfl
  | cons e es ih =>
    intro m a ha
    rw [List.foldl_cons,
      ih (p7_hitlist_entry_Destroy e m) a
        (fun d hd => ha d (List.mem_cons_of_mem e hd))]
    simp [p7_hitlist_entry_Destroy, freeAddr, ha e (by simp)]

/-- C8: destroying one entry or a whole hitlist never mutates or frees any
address the entries' payloads alias in the externally owned data shard:
for every address reachable through some entry's payload fields and
distinct from the scaffolding addresses being freed, the memory at that
address is unchanged by `p7_hitlist_entry_Destroy` on every entry and by
`p7_hitlist_Destroy` on the whole structure. -/
theorem claim_C8_payload_frame (nodes : List EntryNode)
    (chunk_addrs : List Nat) (m : Mem) (a : Nat)
    (_hreach : ∃ e ∈ nodes, a ∈ e.payload_fields)
    (hnode : ∀ e ∈ nodes, a ≠ e.node_addr)
    (hchunk : a ∉ chunk_addrs) :
    p7_hitlist_Destroy nodes chunk_addrs m a = m a ∧
    ∀ e ∈ nodes, p7_hitlist_entry_Destroy e m a = m a := by
  constructor
  · unfold p7_hitlist_Destroy
    rw [foldl_freeAddr_of_not_mem chunk_addrs _ a hchunk]
    exact foldl_entry_destroy_of_ne nodes m a hnode
  · intro e he
    simp [p7_hitlist_entry_Destroy, freeAddr, hnode e he]

/-- Witness for C8: two entry nodes at addresses 0 and 1 whose payloads
alias shard addresses 10, 11, 12; one chunk shell at address 2; the shard
address 10 is untouched by destruction. -/
theorem claim_C8_witness :
    p7_hitlist_Destroy [⟨0, [10, 11]⟩, ⟨1, [12]⟩] [2]
        (fun _ => some 7) 10 = (fun _ => some 7 : Mem) 10 ∧
    ∀ e ∈ [EntryNode.mk 0 [10, 11], EntryNode.mk 1 [12]],
      p7_hitlist_entry_Destroy e (fun _ => some 7) 10 =
        (fun _ => some 7 : Mem) 10 :=
  claim_C8_payload_frame [⟨0, [10, 11]⟩, ⟨1, [12]⟩] [2] (fun _ => some 7) 10
    (by decide) (by decide) (by decide)

/-! ### Reporting adapter -/

theorem writeAll_eq_none_iff :
    ∀ (ls : List OutLine) (st : OutStream),
    (writeAll st ls = none ↔ st.capacity < ls.length) := by
  intro ls
  induction ls with
  | nil => intro st; simp [writeAll]
  | cons l ls2 ih =>
    intro st
    cases hc : st.capacity with
    | zero => simp [writeAll, writeLine, hc]
    | succ n =>
      simp only [writeAll, writeLine, hc, ih, List.length_cons]
      exact ⟨fun h => by omega, fun h => by omega⟩

/-- C9: `p7_hitlist_TabularTargets` returns `eslOK` on success, returns
the distinct write-failure code `eslEWRITE` exactly when a write to the
stream fails (the stream's capacity cannot hold all attempted lines), and
in every case leaves the hitlist completely unchanged. -/
theorem claim_C9_tabular (ofp : OutStream) (th : P7_HITLIST) (sh : Bool) :
    (p7_hitlist_TabularTargets ofp th sh).2.2 = th ∧
    ((p7_hitlist_TabularTargets ofp th sh).1 = eslOK ∨
      (p7_hitlist_TabularTargets ofp th sh).1 = eslEWRITE) ∧
    ((p7_hitlist_TabularTargets ofp th sh).1 = eslEWRITE ↔
      ofp.capacity < tabularLineCount th sh) := by
  have hlen : ((if sh then [OutLine.header] else []) ++
      th.hit_list.map (fun e => OutLine.hitline e.id)).length =
      tabularLineCount th sh := by
    cases sh <;> simp [tabularLineCount, Nat.add_comm]
  cases hw : writeAll ofp ((if sh then [OutLine.header] else []) ++
      th.hit_list.map (fun e => OutLine.hitline e.id)) with
  | some st =>
    have hres : p7_hitlist_TabularTargets ofp th sh = (eslOK, st, th) := by
      simp only [p7_hitlist_TabularTargets, hw]
    rw [hres]
    refine ⟨rfl, Or.inl rfl, ?_⟩
    constructor
    · intro hcode
      have hne : eslOK ≠ eslEWRITE := by decide
      exact absurd hcode hne
    · intro hcap
      rw [← hlen] at hcap
      rw [(writeAll_eq_none_iff _ ofp).mpr hcap] at hw
      cases hw
  | none =>
    have hres : p7_hitlist_TabularTargets ofp th sh =
        (eslEWRITE, ofp, th) := by
      simp only [p7_hitlist_TabularTargets, hw]
    rw [hres]
    refine ⟨rfl, Or.inr rfl, ⟨fun _ => ?_, fun _ => rfl⟩⟩
    rw [← hlen]
    exact (writeAll_eq_none_iff _ ofp).mp hw

end HmmerHitlist
